import Mathlib

/-!
Verification of the dataviz-enhanced analytical core.

Shallow embedding of `scripts/detect_highlights.py` (detector pipeline and
merge/deduplicate) and the `reduce_data` pipeline of
`scripts/generate_chart.py`.

Conventions of the embedding:
* A numeric sequence is a `List (Option ℚ)`: `none` is a missing entry (NaN),
  `some v` an exact value.  Real arithmetic is modelled over `ℚ`; the two
  comparisons the source makes against a square root (`abs z > t` where
  `z = d / sqrt var`, and the changepoint shift test) are encoded without the
  root through the real-number equivalence `abs d / sqrt var > t ↔
  t < 0 ∨ d * d > t * t * var` (for `var > 0`), which is exact.
* `std == 0` in the source is equivalent to `var == 0`, and a pooled standard
  deviation of zero is equivalent to a pooled variance of zero; the embedding
  tests the variances.
* Diagnostic fields of a highlight record that no property here mentions
  (`label`, the rounded `z_score` / `shift_magnitude` metrics) are omitted
  from the record.
* Python dict iteration together with the final `sorted(..., key=index)` is
  modelled as an association-list fold followed by a stable insertion sort on
  the index; the indices of the sorted list are pairwise distinct, so the
  choice of (stable) sorting algorithm is irrelevant.
-/

/-- Substring test on character lists: does `pat` match a prefix-run here? -/
def charsMatchAt : List Char → List Char → Bool
  | [], _ => true
  | _ :: _, [] => false
  | p :: ps, c :: cs => p == c && charsMatchAt ps cs

/-- Does `pat` occur as a contiguous run anywhere in `s`? -/
def charsHasSub (pat : List Char) : List Char → Bool
  | [] => charsMatchAt pat []
  | c :: cs => charsMatchAt pat (c :: cs) || charsHasSub pat cs

/-- `hasSubStr s pat` : the string `pat` occurs as a substring of `s`. -/
def hasSubStr (s pat : String) : Bool :=
  charsHasSub pat.data s.data

/-- Severity enum of a highlight record: `high > medium > low`. -/
inductive Severity where
  | low
  | medium
  | high
deriving DecidableEq, Repr

/-- The canonical Highlight record produced by the detectors
(`detect_highlights.py`).  Diagnostic fields (`label`, rounded metrics) that
no claim mentions are omitted. -/
structure Highlight where
  index : Nat
  value : ℚ
  reason : String
  method : String
  severity : Severity
  suggested_style : String
deriving DecidableEq, Repr

/-- `severity_order` dict of `deduplicate` (high=3, medium=2, low=1). -/
def severity_order : Severity → Nat
  | .high => 3
  | .medium => 2
  | .low => 1

/-- The non-missing values of a sequence, in order:
`values[~np.isnan(values)]`. -/
def cleanOf : List (Option ℚ) → List ℚ
  | [] => []
  | none :: rest => cleanOf rest
  | some v :: rest => v :: cleanOf rest

/-- Mean of a list of rationals (`np.mean` / `np.nanmean` over the
non-missing values); `0` on the empty list, which the source guards away. -/
def meanOf (l : List ℚ) : ℚ :=
  l.sum / l.length

/-- Population variance (`np.var`, the square of `np.nanstd` / `np.std`). -/
def varOf (l : List ℚ) : ℚ :=
  ((l.map fun v => (v - meanOf l) * (v - meanOf l)).sum) / l.length

/-- The `for i, v in enumerate(values)` loop of `detect_zscore`, carrying the
current index: skip missing entries, emit a record when
`abs ((v - mean) / std) > threshold`, which over `ℚ` (with `varq = std²`) is
`threshold < 0 ∨ threshold² · varq < (v - mean)²`. -/
def zscoreLoop (threshold mean varq : ℚ) : Nat → List (Option ℚ) → List Highlight
  | _, [] => []
  | i, none :: rest => zscoreLoop threshold mean varq (i + 1) rest
  | i, some v :: rest =>
    if threshold < 0 ∨ threshold * threshold * varq < (v - mean) * (v - mean) then
      let isHigh : Bool :=
        decide (threshold + 1 < 0 ∨
          (threshold + 1) * (threshold + 1) * varq < (v - mean) * (v - mean))
      { index := i
        value := v
        reason := "Z-score outlier (" ++ (if mean < v then "above" else "below") ++ " mean)"
        method := "zscore"
        severity := if isHigh then .high else .medium
        suggested_style := if isHigh then "halo_ring" else "color_shift" : Highlight }
        :: zscoreLoop threshold mean varq (i + 1) rest
    else zscoreLoop threshold mean varq (i + 1) rest

/-- `detect_zscore` of `detect_highlights.py`.  `std == 0` is equivalent to
`var == 0` (and an all-missing input also yields the empty list, as NaN
statistics make every comparison false in the source). -/
def detect_zscore (values : List (Option ℚ)) (threshold : ℚ) : List Highlight :=
  let clean := cleanOf values
  if varOf clean = 0 then []
  else zscoreLoop threshold (meanOf clean) (varOf clean) 0 values

/-- First position (with its value) of a non-missing entry satisfying `p`,
scanning left to right: the `for i, v in enumerate(values): ... break` loops
of `detect_minmax`. -/
def firstWhere (p : ℚ → Bool) : List (Option ℚ) → Option (Nat × ℚ)
  | [] => none
  | none :: rest => (firstWhere p rest).map fun q => (q.1 + 1, q.2)
  | some v :: rest =>
    if p v then some (0, v)
    else (firstWhere p rest).map fun q => (q.1 + 1, q.2)

/-- Packaging of one min/max search result (`None` when the loop never hit
the extreme) as the list of records it contributes. -/
def mmRecOf : Option (Nat × ℚ) → String → List Highlight
  | some q, why => [{ index := q.1, value := q.2, reason := why,
                      method := "minmax", severity := .low,
                      suggested_style := "annotation_arrow" }]
  | none, _ => []

/-- `detect_minmax` of `detect_highlights.py`: the global maximum and global
minimum over the non-missing values (`np.max` / `np.min` as folds), each
reported at its first occurrence (the two `break`-terminated scans),
maximum first. -/
def detect_minmax (values : List (Option ℚ)) : List Highlight :=
  match cleanOf values with
  | [] => []
  | c :: cs =>
    mmRecOf (firstWhere (fun v => v == cs.foldl max c) values) "Global maximum" ++
    mmRecOf (firstWhere (fun v => v == cs.foldl min c) values) "Global minimum"

/-- Body of the changepoint loop for one candidate position `i`
(`detect_changepoint`): the two windows, their cleaned values, the pooled
variance, and the shift test.  `values[max(0, i - window):i]` is
`(values.drop (i - window)).take (i - (i - window))` under truncated `ℕ`
subtraction; `abs (rm - lm) / sqrt pv > t` is encoded as
`t < 0 ∨ (rm - lm)² > t² · pv`. -/
def cpCheck (values : List (Option ℚ)) (window : Nat) (threshold : ℚ) (i : Nat) :
    Option Highlight :=
  match values.getD i none with
  | none => none
  | some v =>
    let leftClean := cleanOf ((values.drop (i - window)).take (i - (i - window)))
    let rightClean := cleanOf ((values.drop (i + 1)).take window)
    if leftClean.length < 2 ∨ rightClean.length < 2 then none
    else
      let lm := meanOf leftClean
      let rm := meanOf rightClean
      let pv := (varOf leftClean * leftClean.length + varOf rightClean * rightClean.length) /
        (leftClean.length + rightClean.length)
      if pv = 0 then none
      else
        if threshold < 0 ∨ threshold * threshold * pv < (rm - lm) * (rm - lm) then
          let isHigh : Bool :=
            decide (threshold + 1 < 0 ∨
              (threshold + 1) * (threshold + 1) * pv < (rm - lm) * (rm - lm))
          some { index := i
                 value := v
                 reason := "Changepoint (" ++ (if lm < rm then "increase" else "decrease") ++ ")"
                 method := "changepoint"
                 severity := if isHigh then .high else .medium
                 suggested_style := "band_shade" }
        else none

/-- `detect_changepoint` of `detect_highlights.py`: sliding two-window
mean-shift test over candidate positions `range(window, n - window)`. -/
def detect_changepoint (values : List (Option ℚ)) (window : Nat) (threshold : ℚ) :
    List Highlight :=
  let n := values.length
  if n < window * 2 + 1 then []
  else (List.range' window (n - window * 2)).filterMap (cpCheck values window threshold)

/-- One step of the `seen` dict update in `deduplicate`: replace the entry at
the record's index only when the new record's severity is strictly higher;
insert at the end when the index is new. -/
def updateSeen : List (Nat × Highlight) → Highlight → List (Nat × Highlight)
  | [], hl => [(hl.index, hl)]
  | (i, old) :: rest, hl =>
    if hl.index = i then
      if severity_order old.severity < severity_order hl.severity then (i, hl) :: rest
      else (i, old) :: rest
    else (i, old) :: updateSeen rest hl

/-- Ordering of highlight records by index (the `key=lambda h: h["index"]`
of the final `sorted`). -/
def idxLe (a b : Highlight) : Prop :=
  a.index ≤ b.index

instance : DecidableRel idxLe := fun a b => by
  unfold idxLe; infer_instance

instance : IsTotal Highlight idxLe :=
  ⟨fun a b => Nat.le_total a.index b.index⟩

instance : IsTrans Highlight idxLe :=
  ⟨fun _ _ _ h h' => Nat.le_trans h h'⟩

/-- `deduplicate` of `detect_highlights.py`: fold the candidates through the
`seen` dict, then sort the kept records by ascending index. -/
def deduplicate (hls : List Highlight) : List Highlight :=
  List.insertionSort idxLe ((hls.foldl updateSeen []).map Prod.snd)

/-!
### The reduction pipeline (`reduce_data` of `generate_chart.py`)

A pandas DataFrame is modelled row-major: ordered column names, a per-column
numeric-dtype flag (`pd.api.types.is_numeric_dtype`), and ordered rows of
cells.  A cell is a string or an exact rational; missing table values are not
modelled (no claim involves them).  Column names are assumed unique, as for
any sane pandas frame.  `sort_values` (pandas' default quicksort) is modelled
by a stable insertion sort; on the pairwise-distinct keys used below the two
agree.
-/

/-- A table cell: a string or a numeric (rational) value. -/
inductive Cell where
  | str : String → Cell
  | num : ℚ → Cell
deriving DecidableEq, Repr

/-- Row-major DataFrame model: column names, per-column numeric-dtype flags,
rows of cells. -/
structure DF where
  colNames : List String
  numericCol : List Bool
  rows : List (List Cell)
deriving DecidableEq, Repr

/-- Position of a column name (`df.columns` lookup); `none` when the name is
not a column. -/
def colIdx (df : DF) (c : String) : Option Nat :=
  df.colNames.findIdx? fun n => n == c

/-- Cell of a row at a column position (rows are well-formed, so the default
is never read on a well-formed frame). -/
def cellAt (r : List Cell) (j : Nat) : Cell :=
  r.getD j (Cell.num 0)

/-- Numeric content of a cell; numeric-dtyped columns only hold `num` cells
on a well-formed frame. -/
def cellNum : Cell → ℚ
  | .num q => q
  | .str _ => 0

/-- Lexicographic order on character lists (Python string comparison). -/
def charsLe : List Char → List Char → Bool
  | [], _ => true
  | _ :: _, [] => false
  | a :: as, b :: bs => if a < b then true else if b < a then false else charsLe as bs

/-- Comparison of cells as pandas compares column values: numeric by value,
strings lexicographically.  A mixed comparison cannot occur within one
dtype-consistent column; the embedding makes it total arbitrarily. -/
def cellLeB : Cell → Cell → Bool
  | .num a, .num b => a ≤ b
  | .str a, .str b => charsLe a.data b.data
  | .num _, .str _ => true
  | .str _, .num _ => false

/-- Row order by the cell in column position `j`, ascending or descending
(`df.sort_values(sort_col, ascending=...)`). -/
def rowLe (j : Nat) (asc : Bool) (r s : List Cell) : Prop :=
  if asc then cellLeB (cellAt r j) (cellAt s j) = true
  else cellLeB (cellAt s j) (cellAt r j) = true

instance (j : Nat) (asc : Bool) : DecidableRel (rowLe j asc) := fun r s => by
  unfold rowLe; exact instDecidableIte ..

/-- Cell order as a relation, for sorting group keys
(pandas `groupby(..., sort=True)`). -/
def cellLe (a b : Cell) : Prop :=
  cellLeB a b = true

instance : DecidableRel cellLe := fun a b => by
  unfold cellLe; infer_instance

/-- Truthiness-plus-positivity guard on an optional integer option:
Python's `opt and opt > 0` (`None` and `0` are falsy). -/
def truthyPos : Option Int → Bool
  | some t => 0 < t
  | none => false

/-- Aggregation of one group's numeric values under a pandas aggregation
function name; `agg_map.get(agg_func, "mean")` sends any unknown name (and
`"mean"` itself) to the mean. -/
def aggFunc (f : String) (qs : List ℚ) : ℚ :=
  match f with
  | "sum" => qs.sum
  | "median" =>
    let sorted := List.insertionSort (fun a b : ℚ => a ≤ b) qs
    let n := qs.length
    if n = 0 then 0
    else if n % 2 = 1 then sorted.getD (n / 2) 0
    else (sorted.getD (n / 2 - 1) 0 + sorted.getD (n / 2) 0) / 2
  | "count" => qs.length
  | "min" =>
    match qs with
    | [] => 0
    | a :: as => as.foldl min a
  | "max" =>
    match qs with
    | [] => 0
    | a :: as => as.foldl max a
  | _ => meanOf qs

/-- Names of the numeric-dtyped columns
(`df.select_dtypes(include=[np.number]).columns`). -/
def numericNames (df : DF) : List String :=
  (List.range df.colNames.length).filterMap fun j =>
    if df.numericCol.getD j false then some (df.colNames.getD j "") else none

/-- `df.groupby(groupby, as_index=False)[agg_cols].agg(func)`: group keys in
ascending order (pandas sorts group keys), one row per key, the key column
first, every aggregated column numeric.  `aggColsOf` is the `agg_cols` list
of the source. -/
def aggColsOf (df : DF) (y g : String) : List String :=
  let base := (numericNames df).filter fun c => c ≠ g
  if base = [] then (if g ∈ df.colNames ∧ y ∈ df.colNames then [y] else []) else base

/-- The groupby-and-aggregate core of stage 1 of `reduce_data` (before the
optional rename of the key column). -/
def aggCore (df : DF) (y g f : String) : DF :=
  match colIdx df g with
  | none => df
  | some gj =>
    let aggCols := aggColsOf df y g
    let keys := List.insertionSort cellLe ((df.rows.map fun r => cellAt r gj).dedup)
    { colNames := g :: aggCols
      numericCol := df.numericCol.getD gj false :: aggCols.map fun _ => true
      rows := keys.map fun k =>
        let grp := df.rows.filter fun r => cellAt r gj == k
        k :: aggCols.map fun c =>
          match colIdx df c with
          | some j => Cell.num (aggFunc f (grp.map fun r => cellNum (cellAt r j)))
          | none => Cell.num 0 }

/-- `df.rename(columns={old: new})`. -/
def renameCol (df : DF) (old new : String) : DF :=
  { df with colNames := df.colNames.map fun c => if c = old then new else c }

/-- Stage 1 of `reduce_data`: `if groupby and agg_func and groupby in
df.columns`, aggregate; then rename the key column to `x_col` only when
`x_col` is truthy, not already a column of the aggregated frame, and the key
column is present. -/
def aggStage (df : DF) (y : String) (x_col gb agg : Option String) : DF :=
  match gb, agg with
  | some g, some f =>
    if g ≠ "" ∧ f ≠ "" ∧ g ∈ df.colNames then
      let d := aggCore df y g f
      match x_col with
      | some x =>
        if x ≠ "" ∧ x ∉ d.colNames ∧ g ∈ d.colNames then renameCol d g x else d
      | none => d
    else df
  | _, _ => df

/-- `sort_col = sort_by or y_primary` (Python `or`: `None` and `""` are
falsy). -/
def sortColOf (sort_by : Option String) (y : String) : String :=
  match sort_by with
  | some s => if s = "" then y else s
  | none => y

/-- Stage 2 of `reduce_data`: `if sort_col and sort_col in df.columns`, sort
by it, ascending iff `sort_order == "asc"`. -/
def sortStage (df : DF) (sc : String) (sort_order : String) : DF :=
  if sc = "" then df
  else
    match colIdx df sc with
    | none => df
    | some j =>
      { df with rows := List.insertionSort (rowLe j (sort_order == "asc")) df.rows }

/-- Stage 3 of `reduce_data`: `nlargest` / `nsmallest` on the sort column
followed by the display re-sort.  `nlargest n c` is the n first rows by
descending `c` (resp. ascending for `nsmallest`). -/
def rankStage (df : DF) (sc : String) (top bottom : Option Int) : DF :=
  if truthyPos top then
    match colIdx df sc with
    | none => df
    | some j =>
      let picked := (List.insertionSort (rowLe j false) df.rows).take (top.getD 0).toNat
      { df with rows := List.insertionSort (rowLe j false) picked }
  else if truthyPos bottom then
    match colIdx df sc with
    | none => df
    | some j =>
      let picked := (List.insertionSort (rowLe j true) df.rows).take (bottom.getD 0).toNat
      { df with rows := List.insertionSort (rowLe j true) picked }
  else df

/-- The synthesized `"Other"` row of stage 4: `"Other"` in the x column and
in every non-numeric column, the sum of the excluded rows' values in every
other numeric column. -/
def otherRowOf (df : DF) (x : String) (rest : List (List Cell)) : List Cell :=
  (List.range df.colNames.length).map fun j =>
    if df.colNames.getD j "" = x then Cell.str "Other"
    else if df.numericCol.getD j false then
      Cell.num ((rest.map fun r => cellNum (cellAt r j)).sum)
    else Cell.str "Other"

/-- Stage 4 of `reduce_data`: `if max_categories and max_categories > 0 and
x_col and x_col in df.columns` and the row count exceeds `max_categories`,
keep the first `max_categories` rows and append the `"Other"` row. -/
def collapseStage (df : DF) (x_col : Option String) (mc : Option Int) : DF :=
  match x_col with
  | none => df
  | some x =>
    if truthyPos mc ∧ x ≠ "" then
      match colIdx df x with
      | none => df
      | some _ =>
        let m := (mc.getD 0).toNat
        if m < df.rows.length then
          { df with rows := df.rows.take m ++ [otherRowOf df x (df.rows.drop m)] }
        else df
    else df

/-- The keyword-argument bag of `reduce_data`, with the source's defaults. -/
structure ReduceKw where
  x_col : Option String := none
  groupby : Option String := none
  agg : Option String := none
  top : Option Int := none
  bottom : Option Int := none
  sort_by : Option String := none
  sort_order : String := "desc"
  max_categories : Option Int := none
deriving Repr

/-- `reduce_data` of `generate_chart.py` for a single y column: the four
stages in order — aggregate, sort, rank-limit, category collapse — with
`sort_col = sort_by or y_primary` shared by stages 2 and 3. -/
def reduce_data (df : DF) (y_col : String) (kw : ReduceKw) : DF :=
  let d1 := aggStage df y_col kw.x_col kw.groupby kw.agg
  let sc := sortColOf kw.sort_by y_col
  let d2 := sortStage d1 sc kw.sort_order
  let d3 := rankStage d2 sc kw.top kw.bottom
  collapseStage d3 kw.x_col kw.max_categories

/-- Dtype-consistency and shape well-formedness of a frame: as many dtype
flags as columns, every row as long as the header, and numeric-dtyped
columns holding only numeric cells. -/
def DF.WF (df : DF) : Prop :=
  df.numericCol.length = df.colNames.length ∧
  (∀ r ∈ df.rows, r.length = df.colNames.length) ∧
  ∀ r ∈ df.rows, ∀ j, df.numericCol.getD j false = true →
    ∃ q, cellAt r j = Cell.num q

/-!
### Concrete instances and specification-side helpers used by the claims
-/

/-- The five-category table of scenario 4 (x-values `A`..`E`, one numeric
value column holding `5, 4, 3, 2, 1`). -/
def df3 : DF :=
  { colNames := ["cat", "val"], numericCol := [false, true],
    rows := [[Cell.str "A", Cell.num 5], [Cell.str "B", Cell.num 4],
             [Cell.str "C", Cell.num 3], [Cell.str "D", Cell.num 2],
             [Cell.str "E", Cell.num 1]] }

/-- The keyword bag of scenario 4: only `x_col` and `max_categories = 3`. -/
def kw3 : ReduceKw :=
  { x_col := some "cat", max_categories := some 3 }

/-- A two-row table with no supplied reduction parameters, for the stage
identity claim. -/
def df4 : DF :=
  { colNames := ["x", "v"], numericCol := [false, true],
    rows := [[Cell.str "A", Cell.num 1], [Cell.str "B", Cell.num 2]] }

/-- The three-row table used as the concrete instance of the collapse claim. -/
def df2w : DF :=
  { colNames := ["cat", "val"], numericCol := [false, true],
    rows := [[Cell.str "A", Cell.num 1], [Cell.str "B", Cell.num 2],
             [Cell.str "C", Cell.num 3]] }

/-- A one-row table on which the caller's x column (`"x"`) is itself a
numeric column, distinct from the group-by column `"g"`. -/
def df8c : DF :=
  { colNames := ["g", "x", "y"], numericCol := [false, true, true],
    rows := [[Cell.str "a", Cell.num 1, Cell.num 2]] }

/-- A table for the amended rename claim: group column `"g"`, one numeric
value column, and a caller x-column name `"cat"` absent from the frame. -/
def df8w : DF :=
  { colNames := ["g", "val"], numericCol := [false, true],
    rows := [[Cell.str "a", Cell.num 1], [Cell.str "b", Cell.num 2],
             [Cell.str "a", Cell.num 3]] }

/-- The concrete sequence `[0, 1, 10, 11, 10]` on which the changepoint
detector (window 2, threshold 2) fires at position 2. -/
def vals9 : List (Option ℚ) :=
  [some 0, some 1, some 10, some 11, some 10]

/-- The record the changepoint detector emits on `vals9`. -/
def hw9 : Highlight :=
  { index := 2, value := 10, reason := "Changepoint (increase)",
    method := "changepoint", severity := .high, suggested_style := "band_shade" }

/-- The per-candidate resolution step of the `seen` dict: a new candidate at
an already-seen index replaces the kept one only when its severity is
strictly higher (so the first-encountered candidate wins ties). -/
def sevStep : Option Highlight → Highlight → Option Highlight
  | none, h => some h
  | some b, h =>
    if severity_order b.severity < severity_order h.severity then some h else some b

/-- Lookup in the association-list model of the `seen` dict. -/
def assocFind (i : Nat) : List (Nat × Highlight) → Option Highlight
  | [] => none
  | (k, h) :: rest => if k = i then some h else assocFind i rest

/-- Every entry of the `seen` dict is keyed by its record's index. -/
def WellKeyed (seen : List (Nat × Highlight)) : Prop :=
  ∀ p ∈ seen, (Prod.snd p).index = p.1

/-!
### Helper lemmas
-/

lemma colIdx_ne_none_of_mem {df : DF} {c : String} (h : c ∈ df.colNames) :
    colIdx df c ≠ none := by
  unfold colIdx
  intro hn
  have := List.findIdx?_eq_none_iff.mp hn c h
  simp at this

lemma colIdx_eq_none_of_not_mem {df : DF} {c : String} (h : c ∉ df.colNames) :
    colIdx df c = none := by
  unfold colIdx
  refine List.findIdx?_eq_none_iff.mpr fun x hx => ?_
  simp only [beq_eq_false_iff_ne, ne_eq]
  rintro rfl
  exact h hx

/-!
### C5 — z-score scenario `[10,10,10,10,100]`, threshold 2.5
-/

/-- C5, counterexample: on `[10, 10, 10, 10, 100]` with threshold `2.5` the
z-score detector flags nothing at all — the population mean is `28` and the
standard deviation `36`, so the z-score at index 4 is `2.0 ≤ 2.5`.  In
particular it does not flag index 4, contrary to the claim. -/
theorem C5_zscore_scenario_counterexample :
    detect_zscore [some 10, some 10, some 10, some 10, some 100] (5/2) = [] ∧
    ¬ ∃ hl ∈ detect_zscore [some 10, some 10, some 10, some 10, some 100] (5/2),
        hl.index = 4 := by
  have h : detect_zscore [some 10, some 10, some 10, some 10, some 100] (5/2) = [] := by
    norm_num [detect_zscore, zscoreLoop, cleanOf, meanOf, varOf]
  refine ⟨h, ?_⟩
  rw [h]
  simp

/-- C5, amended: with threshold `2.5` the z-score detector returns no
highlights on `[10, 10, 10, 10, 100]` (the z-score at index 4 is exactly
`2.0`); with a threshold below `1.0`, e.g. `0.9`, it flags exactly index 4,
with severity `"high"` and a reason containing `"above mean"`. -/
theorem C5_zscore_scenario_amended :
    detect_zscore [some 10, some 10, some 10, some 10, some 100] (5/2) = [] ∧
    detect_zscore [some 10, some 10, some 10, some 10, some 100] (9/10) =
      [{ index := 4, value := 100, reason := "Z-score outlier (above mean)",
         method := "zscore", severity := .high, suggested_style := "halo_ring" }] ∧
    hasSubStr "Z-score outlier (above mean)" "above mean" = true := by
  refine ⟨?_, ?_, by decide⟩
  · norm_num [detect_zscore, zscoreLoop, cleanOf, meanOf, varOf]
  · norm_num [detect_zscore, zscoreLoop, cleanOf, meanOf, varOf]
    rfl

/-!
### C4 — stage identity when parameters are absent
-/

/-- C4, counterexample: with no reduction parameters supplied at all, the
pipeline is not the identity: the sort stage defaults its sort column to the
primary y column (`sort_col = sort_by or y_primary`) and sorts descending,
reordering the two rows of `df4`. -/
theorem C4_stage_identity_counterexample :
    reduce_data df4 "v" {} ≠ df4 ∧
    (reduce_data df4 "v" {}).rows =
      [[Cell.str "B", Cell.num 2], [Cell.str "A", Cell.num 1]] := by
  constructor <;> decide

/-- C4, amended: the aggregate, rank-limit and category-collapse stages are
the identity when their parameters are not supplied; the sort stage, given no
`sort_by`, falls back to the primary y column and sorts by it (descending by
default), so it is the identity only when that column is absent from the
table. -/
theorem C4_stage_identity_amended (df : DF) (y : String) (x : Option String)
    (sc : String) :
    aggStage df y x none none = df ∧
    rankStage df sc none none = df ∧
    collapseStage df x none = df ∧
    sortColOf none y = y ∧
    (y ∉ df.colNames → sortStage df y "desc" = df) := by
  refine ⟨rfl, rfl, ?_, rfl, ?_⟩
  · cases x <;> rfl
  · intro hy
    unfold sortStage
    rcases eq_or_ne y "" with h | h
    · simp [h]
    · rw [if_neg h, colIdx_eq_none_of_not_mem hy]

/-- C4 witness: the amended statement applied to the concrete table `df4`
and a column name that is not in it. -/
theorem C4_stage_identity_amended_witness :
    sortStage df4 "nope" "desc" = df4 :=
  (C4_stage_identity_amended df4 "nope" (some "x") "v").2.2.2.2 (by decide)

/-!
### C3 — scenario 4: categories A..E, `max_categories = 3`
-/

/-- C3, counterexample: on the A..E table with values `5,4,3,2,1` and
`max_categories = 3`, the pipeline keeps the **three** top rows (A, B, C)
and appends an `"Other"` row summing only D and E, so the output has 4 rows
`A, B, C, Other` — not the 3 rows `A, B, Other` with `Other = C+D+E`
predicted by the claim. -/
theorem C3_collapse_scenario_counterexample :
    ((reduce_data df3 "val" kw3).rows.map fun r => cellAt r 0) =
      [Cell.str "A", Cell.str "B", Cell.str "C", Cell.str "Other"] ∧
    (reduce_data df3 "val" kw3).rows.length ≠ 3 := by
  have h1 : aggStage df3 "val" (some "cat") none none = df3 := rfl
  have h2 : sortStage df3 "val" "desc" = df3 := by decide
  have h3 : rankStage df3 "val" none none = df3 := rfl
  have h4 : reduce_data df3 "val" kw3 = collapseStage df3 (some "cat") (some 3) := by
    simp only [reduce_data, kw3, sortColOf, h1, h2, h3]
  have h5 : collapseStage df3 (some "cat") (some 3) =
      { df3 with rows := df3.rows.take 3 ++ [otherRowOf df3 "cat" (df3.rows.drop 3)] } :=
    rfl
  have hother : otherRowOf df3 "cat" (df3.rows.drop 3) =
      [Cell.str "Other", Cell.num 3] := by
    norm_num [otherRowOf, df3, cellAt, cellNum, show List.range 2 = [0, 1] from rfl]
    decide
  rw [h4, h5, hother]
  constructor <;> decide

/-- C3, amended: on the A..E table with values `5,4,3,2,1` (already in
descending order of the value column, which the default sort stage
preserves) and `max_categories = 3`, the output is the four rows
`A(5), B(4), C(3), Other(3)`, where `Other`'s value is the sum of the
excluded D and E values. -/
theorem C3_collapse_scenario_amended :
    (reduce_data df3 "val" kw3).rows =
      [[Cell.str "A", Cell.num 5], [Cell.str "B", Cell.num 4],
       [Cell.str "C", Cell.num 3], [Cell.str "Other", Cell.num 3]] := by
  have h1 : aggStage df3 "val" (some "cat") none none = df3 := rfl
  have h2 : sortStage df3 "val" "desc" = df3 := by decide
  have h3 : rankStage df3 "val" none none = df3 := rfl
  have h4 : reduce_data df3 "val" kw3 = collapseStage df3 (some "cat") (some 3) := by
    simp only [reduce_data, kw3, sortColOf, h1, h2, h3]
  have h5 : collapseStage df3 (some "cat") (some 3) =
      { df3 with rows := df3.rows.take 3 ++ [otherRowOf df3 "cat" (df3.rows.drop 3)] } :=
    rfl
  have hother : otherRowOf df3 "cat" (df3.rows.drop 3) =
      [Cell.str "Other", Cell.num 3] := by
    norm_num [otherRowOf, df3, cellAt, cellNum, show List.range 2 = [0, 1] from rfl]
    decide
  rw [h4, h5, hother]
  decide

/-!
### C2 — the category-collapse stage in general
-/

lemma getD_range_map {α : Type} (f : Nat → α) (d : α) {j n : Nat} (hj : j < n) :
    ((List.range n).map f).getD j d = f j := by
  rw [List.getD_eq_getElem?_getD, List.getElem?_map, List.getElem?_range hj]
  rfl

/-- C2: on any table whose designated x/category column is a non-numeric
column (named, present), when `0 < k` and the table entering the collapse
stage has more than `k` rows, the stage keeps the first `k` rows verbatim and
appends exactly one synthesized row whose cell in every numeric column is the
sum of the excluded rows' values there, and in every non-numeric column
(including the x column itself) is the literal `"Other"`. -/
theorem C2_collapse_other_row (df : DF) (x : String) (k : Nat)
    (hx : x ∈ df.colNames) (hx0 : x ≠ "")
    (hxs : ∀ j < df.colNames.length,
      df.colNames.getD j "" = x → df.numericCol.getD j false = false)
    (hk : 0 < k) (hn : k < df.rows.length) :
    ∃ other : List Cell,
      (collapseStage df (some x) (some (k : Int))).rows = df.rows.take k ++ [other] ∧
      (collapseStage df (some x) (some (k : Int))).rows.length = k + 1 ∧
      ∀ j < df.colNames.length,
        (df.numericCol.getD j false = true →
          cellAt other j =
            Cell.num (((df.rows.drop k).map fun r => cellNum (cellAt r j)).sum)) ∧
        (df.numericCol.getD j false = false → cellAt other j = Cell.str "Other") := by
  obtain ⟨j0, hco⟩ : ∃ j, colIdx df x = some j := by
    cases h : colIdx df x with
    | none => exact absurd h (colIdx_ne_none_of_mem hx)
    | some j => exact ⟨j, rfl⟩
  have hguard : truthyPos (some (k : Int)) = true := by
    simp only [truthyPos, decide_eq_true_eq]
    exact_mod_cast hk
  have hrows : (collapseStage df (some x) (some (k : Int))).rows =
      df.rows.take k ++ [otherRowOf df x (df.rows.drop k)] := by
    simp only [collapseStage, hguard, hco, hx0, ne_eq, not_false_eq_true, and_self,
      if_true, Option.getD_some, Int.toNat_natCast, hn, ite_true]
  refine ⟨otherRowOf df x (df.rows.drop k), hrows, ?_, ?_⟩
  · rw [hrows]
    simp [List.length_take, Nat.min_eq_left (le_of_lt hn)]
  · intro j hj
    have hcell : cellAt (otherRowOf df x (df.rows.drop k)) j =
        (if df.colNames.getD j "" = x then Cell.str "Other"
         else if df.numericCol.getD j false then
           Cell.num (((df.rows.drop k).map fun r => cellNum (cellAt r j)).sum)
         else Cell.str "Other") := by
      unfold otherRowOf cellAt
      exact getD_range_map _ _ hj
    constructor
    · intro hnum
      have hname : df.colNames.getD j "" ≠ x := by
        intro h
        rw [hxs j hj h] at hnum
        exact Bool.false_ne_true hnum
      rw [hcell, if_neg hname, if_pos hnum]
    · intro hnn
      by_cases hname : df.colNames.getD j "" = x
      · rw [hcell, if_pos hname]
      · rw [hcell, if_neg hname, hnn]
        simp

/-- C2 witness: the collapse theorem at the concrete three-row table `df2w`
with `k = 2`. -/
theorem C2_collapse_other_row_witness :
    ∃ other : List Cell,
      (collapseStage df2w (some "cat") (some ((2 : Nat) : Int))).rows =
        df2w.rows.take 2 ++ [other] ∧
      (collapseStage df2w (some "cat") (some ((2 : Nat) : Int))).rows.length = 2 + 1 ∧
      ∀ j < df2w.colNames.length,
        (df2w.numericCol.getD j false = true →
          cellAt other j =
            Cell.num (((df2w.rows.drop 2).map fun r => cellNum (cellAt r j)).sum)) ∧
        (df2w.numericCol.getD j false = false → cellAt other j = Cell.str "Other") :=
  C2_collapse_other_row df2w "cat" 2 (by decide) (by decide) (by decide) (by decide)
    (by decide)

/-!
### C8 — the aggregate stage's rename of the group-key column
-/

/-- C8, counterexample: aggregating `df8c` by `"g"` with x column `"x"`
(names differ) does **not** rename the group-key column: `"x"` is already a
column of the aggregated frame, so the rename guard
`x_col not in df.columns` fails and `"g"` survives. -/
theorem C8_rename_counterexample :
    (aggStage df8c "y" (some "x") (some "g") (some "sum")).colNames = ["g", "x", "y"] ∧
    "g" ≠ "x" := by
  constructor <;> decide

/-- C8, amended: the rename of the group-key column to the caller's x-column
name happens exactly under the source's guard: when the aggregation ran
(both parameters truthy and the group column present) **and** the x-column
name is not already a column of the aggregated frame.  Then every occurrence
of the group-key name is replaced by the x name. -/
theorem C8_rename_amended (df : DF) (y g f x : String)
    (hg : g ∈ df.colNames) (hg0 : g ≠ "") (hf0 : f ≠ "") (hx0 : x ≠ "")
    (hxa : x ∉ (aggCore df y g f).colNames) :
    (aggStage df y (some x) (some g) (some f)).colNames =
      (aggCore df y g f).colNames.map fun c => if c = g then x else c := by
  obtain ⟨j0, hco⟩ : ∃ j, colIdx df g = some j := by
    cases h : colIdx df g with
    | none => exact absurd h (colIdx_ne_none_of_mem hg)
    | some j => exact ⟨j, rfl⟩
  have hgc : g ∈ (aggCore df y g f).colNames := by
    simp [aggCore, hco]
  simp only [aggStage, hg0, hf0, hg, hx0, hxa, hgc, ne_eq, not_false_eq_true,
    and_self, if_true, ite_true, renameCol]

/-- C8 witness: the amended rename statement at the concrete table `df8w`
with x-column name `"cat"` (not a column of the aggregated frame). -/
theorem C8_rename_amended_witness :
    (aggStage df8w "val" (some "cat") (some "g") (some "sum")).colNames =
      (aggCore df8w "val" "g" "sum").colNames.map fun c => if c = "g" then "cat" else c :=
  C8_rename_amended df8w "val" "g" "sum" "cat" (by decide) (by decide) (by decide)
    (by decide) (by decide)

/-!
### C7 / C9 — changepoint detector: index range and missing-value skipping
-/

lemma cpCheck_eq_some {values : List (Option ℚ)} {w : Nat} {t : ℚ} {i : Nat}
    {hl : Highlight} (h : cpCheck values w t i = some hl) :
    hl.index = i ∧ values.getD i none = some hl.value := by
  unfold cpCheck at h
  split at h
  · exact absurd h (by simp)
  · rename_i v hv
    dsimp only at h
    split at h
    · exact absurd h (by simp)
    · split at h
      · exact absurd h (by simp)
      · split at h
        · rw [Option.some.injEq] at h
          subst h
          exact ⟨rfl, hv⟩
        · exact absurd h (by simp)

/-- C7: the changepoint detector returns the empty list on sequences shorter
than `2·window + 1`, and every highlight it emits sits at an index `i` with
`window ≤ i < n − window`. -/
theorem C7_changepoint_index_range (values : List (Option ℚ)) (window : Nat)
    (threshold : ℚ) :
    (values.length < 2 * window + 1 →
      detect_changepoint values window threshold = []) ∧
    ∀ hl ∈ detect_changepoint values window threshold,
      window ≤ hl.index ∧ hl.index < values.length - window := by
  constructor
  · intro h
    simp only [detect_changepoint]
    rw [if_pos (by omega)]
  · intro hl hmem
    unfold detect_changepoint at hmem
    dsimp only at hmem
    split at hmem
    · exact absurd hmem (by simp)
    · rename_i hlen
      obtain ⟨i, hi, hcp⟩ := List.mem_filterMap.mp hmem
      obtain ⟨m, hm, rfl⟩ := List.mem_range'.mp hi
      obtain ⟨hidx, -⟩ := cpCheck_eq_some hcp
      rw [hidx]
      omega

/-- C9: the changepoint detector never emits a highlight at a position whose
own entry is missing — every emitted record's index carries a non-missing
value (which is the record's value). -/
theorem C9_changepoint_skips_missing (values : List (Option ℚ)) (window : Nat)
    (threshold : ℚ) (hl : Highlight)
    (hmem : hl ∈ detect_changepoint values window threshold) :
    values.getD hl.index none = some hl.value ∧ values.getD hl.index none ≠ none := by
  unfold detect_changepoint at hmem
  dsimp only at hmem
  split at hmem
  · exact absurd hmem (by simp)
  · obtain ⟨i, hi, hcp⟩ := List.mem_filterMap.mp hmem
    obtain ⟨hidx, hval⟩ := cpCheck_eq_some hcp
    rw [hidx]
    exact ⟨hval, by rw [hval]; simp⟩

lemma cpCheck_vals9 : cpCheck vals9 2 2 2 = some hw9 := by
  norm_num [cpCheck, cleanOf, meanOf, varOf, vals9, hw9,
    show vals9.getD 2 none = some (10 : ℚ) from rfl]
  rfl

lemma detect_changepoint_vals9 : detect_changepoint vals9 2 2 = [hw9] := by
  simp only [detect_changepoint, show vals9.length = 5 from rfl,
    show ¬(5 < 2 * 2 + 1) from by decide, if_neg, if_false,
    show (5 - 2 * 2) = 1 from rfl, show List.range' 2 1 = [2] from rfl,
    List.filterMap_cons, List.filterMap_nil, cpCheck_vals9]

/-- C9 witness: the missing-value-skipping statement at the concrete
sequence `vals9`. -/
theorem C9_changepoint_skips_missing_witness :
    vals9.getD hw9.index none = some hw9.value ∧ vals9.getD hw9.index none ≠ none :=
  C9_changepoint_skips_missing vals9 2 2 hw9
    (by rw [detect_changepoint_vals9]; exact List.mem_singleton.mpr rfl)

/-- C7 witness: the index-range statement at the concrete sequence `vals9`,
whose emitted record sits at index 2 with `window = 2 ≤ 2 < 5 − 2`. -/
theorem C7_changepoint_index_range_witness :
    2 ≤ hw9.index ∧ hw9.index < vals9.length - 2 :=
  (C7_changepoint_index_range vals9 2 2).2 hw9
    (by rw [detect_changepoint_vals9]; exact List.mem_singleton.mpr rfl)

/-!
### C6 / C10 — the min/max detector
-/

lemma mem_mmRecOf {o : Option (Nat × ℚ)} {why : String} {hl : Highlight}
    (h : hl ∈ mmRecOf o why) :
    ∃ q, o = some q ∧
      hl = { index := q.1, value := q.2, reason := why, method := "minmax",
             severity := .low, suggested_style := "annotation_arrow" } := by
  cases o with
  | none => simp [mmRecOf] at h
  | some q =>
    simp only [mmRecOf, List.mem_singleton] at h
    exact ⟨q, rfl, h⟩

lemma length_mmRecOf (o : Option (Nat × ℚ)) (why : String) :
    (mmRecOf o why).length ≤ 1 := by
  cases o <;> simp [mmRecOf]

lemma mem_cleanOf {l : List (Option ℚ)} {w : ℚ} : w ∈ cleanOf l ↔ some w ∈ l := by
  induction l with
  | nil => simp [cleanOf]
  | cons a rest ih => cases a <;> simp [cleanOf, ih]

lemma foldl_max_mem (cs : List ℚ) (c : ℚ) : cs.foldl max c ∈ c :: cs := by
  induction cs generalizing c with
  | nil => simp
  | cons a as ih =>
    simp only [List.foldl_cons]
    rcases List.mem_cons.mp (ih (max c a)) with h | h
    · rcases max_choice c a with h1 | h1 <;> rw [h, h1]
      · exact List.mem_cons_self _ _
      · exact List.mem_cons_of_mem _ (List.mem_cons_self _ _)
    · exact List.mem_cons_of_mem _ (List.mem_cons_of_mem _ h)

lemma foldl_min_mem (cs : List ℚ) (c : ℚ) : cs.foldl min c ∈ c :: cs := by
  induction cs generalizing c with
  | nil => simp
  | cons a as ih =>
    simp only [List.foldl_cons]
    rcases List.mem_cons.mp (ih (min c a)) with h | h
    · rcases min_choice c a with h1 | h1 <;> rw [h, h1]
      · exact List.mem_cons_self _ _
      · exact List.mem_cons_of_mem _ (List.mem_cons_self _ _)
    · exact List.mem_cons_of_mem _ (List.mem_cons_of_mem _ h)

lemma le_foldl_max (cs : List ℚ) (c : ℚ) : ∀ w ∈ c :: cs, w ≤ cs.foldl max c := by
  induction cs generalizing c with
  | nil =>
    intro w hw
    simp only [List.mem_singleton] at hw
    simp [hw]
  | cons a as ih =>
    intro w hw
    simp only [List.foldl_cons]
    rcases List.mem_cons.mp hw with rfl | hw'
    · exact le_trans (le_max_left w a) (ih (max w a) _ (List.mem_cons_self _ _))
    · rcases List.mem_cons.mp hw' with rfl | hw''
      · exact le_trans (le_max_right c w) (ih (max c w) _ (List.mem_cons_self _ _))
      · exact ih (max c a) w (List.mem_cons_of_mem _ hw'')

lemma foldl_min_le (cs : List ℚ) (c : ℚ) : ∀ w ∈ c :: cs, cs.foldl min c ≤ w := by
  induction cs generalizing c with
  | nil =>
    intro w hw
    simp only [List.mem_singleton] at hw
    simp [hw]
  | cons a as ih =>
    intro w hw
    simp only [List.foldl_cons]
    rcases List.mem_cons.mp hw with rfl | hw'
    · exact le_trans (ih (min w a) _ (List.mem_cons_self _ _)) (min_le_left w a)
    · rcases List.mem_cons.mp hw' with rfl | hw''
      · exact le_trans (ih (min c w) _ (List.mem_cons_self _ _)) (min_le_right c w)
      · exact ih (min c a) w (List.mem_cons_of_mem _ hw'')

lemma firstWhere_eq_some {p : ℚ → Bool} {l : List (Option ℚ)} {j : Nat} {v : ℚ}
    (h : firstWhere p l = some (j, v)) :
    l.getD j none = some v ∧ p v = true ∧
      ∀ k < j, ∀ w, l.getD k none = some w → p w = false := by
  induction l generalizing j with
  | nil => simp [firstWhere] at h
  | cons a rest ih =>
    cases a with
    | none =>
      simp only [firstWhere] at h
      cases hfw : firstWhere p rest with
      | none => rw [hfw] at h; simp at h
      | some q =>
        cases q with
        | mk j' v' =>
          rw [hfw] at h
          simp only [Option.map_some', Option.some.injEq, Prod.mk.injEq] at h
          obtain ⟨rfl, rfl⟩ := h
          obtain ⟨h1, h2, h3⟩ := ih hfw
          refine ⟨h1, h2, fun k hk w hw => ?_⟩
          cases k with
          | zero => simp at hw
          | succ k' => exact h3 k' (Nat.lt_of_succ_lt_succ hk) w hw
    | some v₀ =>
      simp only [firstWhere] at h
      by_cases hp : p v₀
      · rw [if_pos hp] at h
        simp only [Option.some.injEq, Prod.mk.injEq] at h
        obtain ⟨rfl, rfl⟩ := h
        exact ⟨rfl, hp, fun k hk => absurd hk (Nat.not_lt_zero k)⟩
      · rw [if_neg hp] at h
        cases hfw : firstWhere p rest with
        | none => rw [hfw] at h; simp at h
        | some q =>
          cases q with
          | mk j' v' =>
            rw [hfw] at h
            simp only [Option.map_some', Option.some.injEq, Prod.mk.injEq] at h
            obtain ⟨rfl, rfl⟩ := h
            obtain ⟨h1, h2, h3⟩ := ih hfw
            refine ⟨h1, h2, fun k hk w hw => ?_⟩
            cases k with
            | zero =>
              simp only [List.getD_cons_zero, Option.some.injEq] at hw
              rw [hw] at hp
              exact Bool.eq_false_iff.mpr hp
            | succ k' => exact h3 k' (Nat.lt_of_succ_lt_succ hk) w hw

lemma firstWhere_eq_none {p : ℚ → Bool} {l : List (Option ℚ)}
    (h : firstWhere p l = none) : ∀ w, some w ∈ l → p w = false := by
  induction l with
  | nil => simp
  | cons a rest ih =>
    cases a with
    | none =>
      simp only [firstWhere, Option.map_eq_none'] at h
      intro w hw
      rcases List.mem_cons.mp hw with h' | h'
      · exact absurd h' (by simp)
      · exact ih h w h'
    | some v₀ =>
      simp only [firstWhere] at h
      by_cases hp : p v₀
      · rw [if_pos hp] at h
        simp at h
      · rw [if_neg hp] at h
        simp only [Option.map_eq_none'] at h
        intro w hw
        rcases List.mem_cons.mp hw with h' | h'
        · rw [Option.some.injEq] at h'
          rw [h']
          exact Bool.eq_false_iff.mpr hp
        · exact ih h w h'

lemma foldl_max_const {c : ℚ} :
    ∀ cs : List ℚ, (∀ w ∈ cs, w = c) → cs.foldl max c = c := by
  intro cs
  induction cs with
  | nil => intro; rfl
  | cons a as ih =>
    intro hall
    have ha : a = c := hall a (List.mem_cons_self _ _)
    simp only [List.foldl_cons, ha, max_self]
    exact ih fun w hw => hall w (List.mem_cons_of_mem _ hw)

lemma foldl_min_const {c : ℚ} :
    ∀ cs : List ℚ, (∀ w ∈ cs, w = c) → cs.foldl min c = c := by
  intro cs
  induction cs with
  | nil => intro; rfl
  | cons a as ih =>
    intro hall
    have ha : a = c := hall a (List.mem_cons_self _ _)
    simp only [List.foldl_cons, ha, min_self]
    exact ih fun w hw => hall w (List.mem_cons_of_mem _ hw)

lemma firstWhere_all_eq {c : ℚ} (l : List (Option ℚ))
    (hall : ∀ ov ∈ l, ov = none ∨ ov = some c) (hm : some c ∈ l) :
    ∃ j, firstWhere (fun v => v == c) l = some (j, c) ∧
      l.getD j none = some c ∧ ∀ k < j, l.getD k none = none := by
  induction l with
  | nil => simp at hm
  | cons a rest ih =>
    cases a with
    | none =>
      have hm' : some c ∈ rest := by
        rcases List.mem_cons.mp hm with h | h
        · exact absurd h (by simp)
        · exact h
      obtain ⟨j, h1, h2, h3⟩ :=
        ih (fun ov h => hall ov (List.mem_cons_of_mem _ h)) hm'
      refine ⟨j + 1, by simp [firstWhere, h1], by simpa using h2, fun k hk => ?_⟩
      cases k with
      | zero => simp
      | succ k' => simpa using h3 k' (Nat.lt_of_succ_lt_succ hk)
    | some v =>
      have hv : v = c := by
        rcases hall (some v) (List.mem_cons_self _ _) with h | h
        · exact absurd h (by simp)
        · exact Option.some.inj h
      refine ⟨0, ?_, ?_, fun k hk => absurd hk (Nat.not_lt_zero k)⟩
      · simp [firstWhere, hv]
      · simp [hv]

/-- C6: on any sequence with at least one non-missing value, the min/max
detector emits at most two records, all of severity `"low"`; every emitted
record sits at the **first** index carrying its value (earliest-match rule);
and there is one record reading `"Global maximum"` whose value bounds every
non-missing value from above and one reading `"Global minimum"` bounding
them from below. -/
theorem C6_minmax_two_extremes (values : List (Option ℚ))
    (h : cleanOf values ≠ []) :
    (detect_minmax values).length ≤ 2 ∧
    (∀ hl ∈ detect_minmax values, hl.severity = Severity.low) ∧
    (∀ hl ∈ detect_minmax values,
      values.getD hl.index none = some hl.value ∧
      ∀ k < hl.index, values.getD k none ≠ some hl.value) ∧
    (∃ hmax ∈ detect_minmax values, hmax.reason = "Global maximum" ∧
      ∀ w ∈ cleanOf values, w ≤ hmax.value) ∧
    (∃ hmin ∈ detect_minmax values, hmin.reason = "Global minimum" ∧
      ∀ w ∈ cleanOf values, hmin.value ≤ w) := by
  cases hc : cleanOf values with
  | nil => exact absurd hc h
  | cons c cs =>
    have hd : detect_minmax values =
        mmRecOf (firstWhere (fun v => v == cs.foldl max c) values) "Global maximum" ++
        mmRecOf (firstWhere (fun v => v == cs.foldl min c) values) "Global minimum" := by
      unfold detect_minmax
      rw [hc]
    have hmax_mem : some (cs.foldl max c) ∈ values := by
      refine mem_cleanOf.mp ?_
      rw [hc]
      exact foldl_max_mem cs c
    have hmin_mem : some (cs.foldl min c) ∈ values := by
      refine mem_cleanOf.mp ?_
      rw [hc]
      exact foldl_min_mem cs c
    obtain ⟨⟨jM, vM⟩, hfM⟩ :
        ∃ q, firstWhere (fun v => v == cs.foldl max c) values = some q := by
      cases hfm : firstWhere (fun v => v == cs.foldl max c) values with
      | none =>
        have := firstWhere_eq_none hfm (cs.foldl max c) hmax_mem
        simp at this
      | some q => exact ⟨q, rfl⟩
    obtain ⟨⟨jm, vm⟩, hfm⟩ :
        ∃ q, firstWhere (fun v => v == cs.foldl min c) values = some q := by
      cases hfm : firstWhere (fun v => v == cs.foldl min c) values with
      | none =>
        have := firstWhere_eq_none hfm (cs.foldl min c) hmin_mem
        simp at this
      | some q => exact ⟨q, rfl⟩
    obtain ⟨hM1, hM2, hM3⟩ := firstWhere_eq_some hfM
    obtain ⟨hm1, hm2, hm3⟩ := firstWhere_eq_some hfm
    have hMval : vM = cs.foldl max c := by simpa using hM2
    have hmval : vm = cs.foldl min c := by simpa using hm2
    refine ⟨?_, ?_, ?_, ?_, ?_⟩
    · rw [hd, List.length_append]
      rw [hfM, hfm]
      simp [mmRecOf]
    · intro hl hm
      rw [hd] at hm
      rcases List.mem_append.mp hm with h' | h' <;>
        · obtain ⟨q, -, rfl⟩ := mem_mmRecOf h'
          rfl
    · intro hl hm
      rw [hd] at hm
      rcases List.mem_append.mp hm with h' | h'
      · obtain ⟨q, hq, rfl⟩ := mem_mmRecOf h'
        rw [hfM, Option.some.injEq] at hq
        subst hq
        refine ⟨hM1, fun k hk heq => ?_⟩
        have := hM3 k hk _ heq
        exact Bool.noConfusion (hM2.symm.trans this)
      · obtain ⟨q, hq, rfl⟩ := mem_mmRecOf h'
        rw [hfm, Option.some.injEq] at hq
        subst hq
        refine ⟨hm1, fun k hk heq => ?_⟩
        have := hm3 k hk _ heq
        exact Bool.noConfusion (hm2.symm.trans this)
    · refine ⟨{ index := jM, value := vM, reason := "Global maximum",
                method := "minmax", severity := .low,
                suggested_style := "annotation_arrow" }, ?_, rfl, ?_⟩
      · rw [hd]
        refine List.mem_append.mpr (Or.inl ?_)
        rw [hfM]
        simp [mmRecOf]
      · intro w hw
        show w ≤ vM
        rw [hMval]
        exact le_foldl_max cs c w hw
    · refine ⟨{ index := jm, value := vm, reason := "Global minimum",
                method := "minmax", severity := .low,
                suggested_style := "annotation_arrow" }, ?_, rfl, ?_⟩
      · rw [hd]
        refine List.mem_append.mpr (Or.inr ?_)
        rw [hfm]
        simp [mmRecOf]
      · intro w hw
        show vm ≤ w
        rw [hmval]
        exact foldl_min_le cs c w hw

/-- C6 witness: the min/max statement at the concrete sequence
`[1, 3, 3, 0, 0]`. -/
theorem C6_minmax_two_extremes_witness :
    (detect_minmax [some 1, some 3, some 3, some 0, some 0]).length ≤ 2 :=
  (C6_minmax_two_extremes [some 1, some 3, some 3, some 0, some 0] (by decide)).1

/-- C10: on a sequence whose non-missing values all equal `c` (with at least
one present), the min/max detector emits exactly two records — first
`"Global maximum"`, then `"Global minimum"` — both at the first non-missing
index, so its own output briefly contains two records sharing one index. -/
theorem C10_minmax_all_equal (values : List (Option ℚ)) (c : ℚ)
    (hall : ∀ ov ∈ values, ov = none ∨ ov = some c) (hmem : some c ∈ values) :
    ∃ j, values.getD j none = some c ∧ (∀ k < j, values.getD k none = none) ∧
      detect_minmax values =
        [{ index := j, value := c, reason := "Global maximum", method := "minmax",
           severity := .low, suggested_style := "annotation_arrow" },
         { index := j, value := c, reason := "Global minimum", method := "minmax",
           severity := .low, suggested_style := "annotation_arrow" }] := by
  have hclean_all : ∀ w ∈ cleanOf values, w = c := by
    intro w hw
    rcases hall (some w) (mem_cleanOf.mp hw) with h | h
    · exact absurd h (by simp)
    · exact Option.some.inj h
  have hc_mem : c ∈ cleanOf values := mem_cleanOf.mpr hmem
  cases hc : cleanOf values with
  | nil => rw [hc] at hc_mem; simp at hc_mem
  | cons c₀ cs =>
    have hc₀ : c₀ = c := hclean_all c₀ (by rw [hc]; exact List.mem_cons_self _ _)
    have hcs : ∀ w ∈ cs, w = c := fun w hw =>
      hclean_all w (by rw [hc]; exact List.mem_cons_of_mem _ hw)
    have hmaxc : cs.foldl max c₀ = c := by rw [hc₀]; exact foldl_max_const cs hcs
    have hminc : cs.foldl min c₀ = c := by rw [hc₀]; exact foldl_min_const cs hcs
    obtain ⟨j, hfw, hj1, hj2⟩ := firstWhere_all_eq values hall hmem
    refine ⟨j, hj1, hj2, ?_⟩
    unfold detect_minmax
    rw [hc]
    show
      mmRecOf (firstWhere (fun v => v == List.foldl max c₀ cs) values) "Global maximum" ++
        mmRecOf (firstWhere (fun v => v == List.foldl min c₀ cs) values) "Global minimum" = _
    rw [hmaxc, hminc, hfw]
    rfl

/-- C10 witness: the all-equal statement at the concrete sequence
`[missing, 7, 7]`. -/
theorem C10_minmax_all_equal_witness :
    ∃ j, ([none, some 7, some 7] : List (Option ℚ)).getD j none = some 7 ∧
      (∀ k < j, ([none, some 7, some 7] : List (Option ℚ)).getD k none = none) ∧
      detect_minmax [none, some 7, some 7] =
        [{ index := j, value := 7, reason := "Global maximum", method := "minmax",
           severity := .low, suggested_style := "annotation_arrow" },
         { index := j, value := 7, reason := "Global minimum", method := "minmax",
           severity := .low, suggested_style := "annotation_arrow" }] :=
  C10_minmax_all_equal [none, some 7, some 7] 7 (by decide) (by decide)

/-!
### C1 — merge/deduplicate
-/

lemma assocFind_updateSeen (seen : List (Nat × Highlight)) (hl : Highlight) (i : Nat) :
    assocFind i (updateSeen seen hl) =
      if hl.index = i then sevStep (assocFind i seen) hl else assocFind i seen := by
  induction seen with
  | nil =>
    by_cases h : hl.index = i <;> simp [updateSeen, assocFind, sevStep, h]
  | cons p rest ih =>
    obtain ⟨k, old⟩ := p
    by_cases h1 : hl.index = k
    · subst h1
      by_cases h3 : severity_order old.severity < severity_order hl.severity
      · by_cases h2 : hl.index = i
        · subst h2
          simp [updateSeen, assocFind, sevStep, h3]
        · simp [updateSeen, assocFind, h3, h2]
      · by_cases h2 : hl.index = i
        · subst h2
          simp [updateSeen, assocFind, sevStep, h3]
        · simp [updateSeen, assocFind, h3, h2]
    · by_cases h2 : k = i
      · subst h2
        simp [updateSeen, assocFind, h1, Ne.symm h1]
      · simp [updateSeen, assocFind, h1, h2, ih]

lemma assocFind_foldl (hls : List Highlight) :
    ∀ (seen : List (Nat × Highlight)) (i : Nat),
      assocFind i (hls.foldl updateSeen seen) =
        (hls.filter fun g => g.index == i).foldl sevStep (assocFind i seen) := by
  induction hls with
  | nil => intro seen i; rfl
  | cons h rest ih =>
    intro seen i
    rw [List.foldl_cons, ih, List.filter_cons]
    by_cases hh : h.index = i
    · simp [hh, assocFind_updateSeen]
    · simp [hh, assocFind_updateSeen]

lemma wellKeyed_updateSeen {seen : List (Nat × Highlight)} (hw : WellKeyed seen)
    (hl : Highlight) : WellKeyed (updateSeen seen hl) := by
  induction seen with
  | nil =>
    intro p hp
    simp only [updateSeen, List.mem_singleton] at hp
    subst hp
    rfl
  | cons q rest ih =>
    obtain ⟨k, old⟩ := q
    have hw_rest : WellKeyed rest := fun p hp => hw p (List.mem_cons_of_mem _ hp)
    by_cases h1 : hl.index = k
    · by_cases h3 : severity_order old.severity < severity_order hl.severity
      · intro p hp
        simp only [updateSeen, if_pos h1, if_pos h3, List.mem_cons] at hp
        rcases hp with rfl | hp
        · exact h1
        · exact hw p (List.mem_cons_of_mem _ hp)
      · intro p hp
        simp only [updateSeen, if_pos h1, if_neg h3, List.mem_cons] at hp
        rcases hp with rfl | hp
        · exact hw (k, old) (List.mem_cons_self _ _)
        · exact hw p (List.mem_cons_of_mem _ hp)
    · intro p hp
      simp only [updateSeen, if_neg h1, List.mem_cons] at hp
      rcases hp with rfl | hp
      · exact hw (k, old) (List.mem_cons_self _ _)
      · exact ih hw_rest p hp

lemma wellKeyed_foldl (hls : List Highlight) :
    ∀ seen, WellKeyed seen → WellKeyed (hls.foldl updateSeen seen) := by
  induction hls with
  | nil => exact fun seen hs => hs
  | cons h rest ih =>
    intro seen hs
    exact ih (updateSeen seen h) (wellKeyed_updateSeen hs h)

lemma keys_updateSeen_subset {seen : List (Nat × Highlight)} {hl : Highlight} {k : Nat}
    (h : k ∈ (updateSeen seen hl).map Prod.fst) :
    k ∈ seen.map Prod.fst ∨ k = hl.index := by
  induction seen with
  | nil =>
    simp only [updateSeen, List.map_cons, List.map_nil, List.mem_singleton] at h
    exact Or.inr h
  | cons q rest ih =>
    obtain ⟨k₀, old⟩ := q
    by_cases h1 : hl.index = k₀
    · by_cases h3 : severity_order old.severity < severity_order hl.severity
      · simp only [updateSeen, if_pos h1, if_pos h3, List.map_cons, List.mem_cons] at h
        rcases h with rfl | h
        · exact Or.inl (List.mem_cons_self _ _)
        · exact Or.inl (List.mem_cons_of_mem _ h)
      · simp only [updateSeen, if_pos h1, if_neg h3, List.map_cons, List.mem_cons] at h
        rcases h with rfl | h
        · exact Or.inl (List.mem_cons_self _ _)
        · exact Or.inl (List.mem_cons_of_mem _ h)
    · simp only [updateSeen, if_neg h1, List.map_cons, List.mem_cons] at h
      rcases h with rfl | h
      · exact Or.inl (List.mem_cons_self _ _)
      · rcases ih h with h' | h'
        · exact Or.inl (List.mem_cons_of_mem _ h')
        · exact Or.inr h'

lemma nodup_keys_updateSeen {seen : List (Nat × Highlight)}
    (hnd : (seen.map Prod.fst).Nodup) (hl : Highlight) :
    ((updateSeen seen hl).map Prod.fst).Nodup := by
  induction seen with
  | nil => simp [updateSeen]
  | cons q rest ih =>
    obtain ⟨k₀, old⟩ := q
    rw [List.map_cons, List.nodup_cons] at hnd
    obtain ⟨hk₀, hrest⟩ := hnd
    by_cases h1 : hl.index = k₀
    · by_cases h3 : severity_order old.severity < severity_order hl.severity
      · simp only [updateSeen, if_pos h1, if_pos h3, List.map_cons, List.nodup_cons]
        exact ⟨hk₀, hrest⟩
      · simp only [updateSeen, if_pos h1, if_neg h3, List.map_cons, List.nodup_cons]
        exact ⟨hk₀, hrest⟩
    · simp only [updateSeen, if_neg h1, List.map_cons, List.nodup_cons]
      refine ⟨fun hmem => ?_, ih hrest⟩
      rcases keys_updateSeen_subset hmem with h' | h'
      · exact hk₀ h'
      · exact h1 h'.symm

lemma nodup_keys_foldl (hls : List Highlight) :
    ∀ seen, (seen.map Prod.fst).Nodup → ((hls.foldl updateSeen seen).map Prod.fst).Nodup := by
  induction hls with
  | nil => exact fun seen hs => hs
  | cons h rest ih =>
    intro seen hs
    exact ih (updateSeen seen h) (nodup_keys_updateSeen hs h)

lemma assocFind_of_mem {seen : List (Nat × Highlight)} {k : Nat} {h : Highlight}
    (hnd : (seen.map Prod.fst).Nodup) (hmem : (k, h) ∈ seen) :
    assocFind k seen = some h := by
  induction seen with
  | nil => simp at hmem
  | cons q rest ih =>
    obtain ⟨k₀, h₀⟩ := q
    rw [List.map_cons, List.nodup_cons] at hnd
    obtain ⟨hk₀, hrest⟩ := hnd
    rcases List.mem_cons.mp hmem with heq | hmem'
    · obtain ⟨rfl, rfl⟩ := Prod.mk.injEq .. ▸ heq
      simp [assocFind]
    · have hk : k₀ ≠ k := by
        intro hk
        subst hk
        exact hk₀ (List.mem_map.mpr ⟨(k₀, h), hmem', rfl⟩)
      simp only [assocFind, if_neg hk]
      exact ih hrest hmem'

lemma mem_of_assocFind {seen : List (Nat × Highlight)} {i : Nat} {h : Highlight}
    (hfind : assocFind i seen = some h) : (i, h) ∈ seen := by
  induction seen with
  | nil => simp [assocFind] at hfind
  | cons q rest ih =>
    obtain ⟨k₀, h₀⟩ := q
    by_cases hk : k₀ = i
    · subst hk
      rw [assocFind, if_pos rfl, Option.some.injEq] at hfind
      subst hfind
      exact List.mem_cons_self _ _
    · rw [assocFind, if_neg hk] at hfind
      exact List.mem_cons_of_mem _ (ih hfind)

lemma foldl_sevStep_some (l : List Highlight) :
    ∀ b : Highlight, ∃ h, l.foldl sevStep (some b) = some h := by
  induction l with
  | nil => exact fun b => ⟨b, rfl⟩
  | cons g gs ih =>
    intro b
    rw [List.foldl_cons]
    by_cases h3 : severity_order b.severity < severity_order g.severity
    · obtain ⟨h, hh⟩ := ih g
      exact ⟨h, by rw [show sevStep (some b) g = some g by simp [sevStep, h3]]; exact hh⟩
    · obtain ⟨h, hh⟩ := ih b
      exact ⟨h, by rw [show sevStep (some b) g = some b by simp [sevStep, h3]]; exact hh⟩

lemma foldl_sevStep_spec (l : List Highlight) :
    ∀ b h : Highlight, l.foldl sevStep (some b) = some h →
      (h = b ∧ ∀ g ∈ l, severity_order g.severity ≤ severity_order b.severity) ∨
      (∃ l₁ l₂, l = l₁ ++ h :: l₂ ∧
        severity_order b.severity < severity_order h.severity ∧
        (∀ g ∈ l₁, severity_order g.severity < severity_order h.severity) ∧
        (∀ g ∈ l₂, severity_order g.severity ≤ severity_order h.severity)) := by
  induction l with
  | nil =>
    intro b h hfold
    rw [List.foldl_nil, Option.some.injEq] at hfold
    exact Or.inl ⟨hfold.symm, by simp⟩
  | cons g gs ih =>
    intro b h hfold
    rw [List.foldl_cons] at hfold
    by_cases h3 : severity_order b.severity < severity_order g.severity
    · rw [show sevStep (some b) g = some g by simp [sevStep, h3]] at hfold
      rcases ih g h hfold with ⟨rfl, hle⟩ | ⟨l₁, l₂, rfl, hbl, hl₁, hl₂⟩
      · exact Or.inr ⟨[], gs, rfl, h3, by simp, hle⟩
      · exact Or.inr ⟨g :: l₁, l₂, rfl, lt_trans h3 hbl, by
          intro g' hg'
          rcases List.mem_cons.mp hg' with rfl | hg''
          · exact hbl
          · exact hl₁ g' hg'', hl₂⟩
    · rw [show sevStep (some b) g = some b by simp [sevStep, h3]] at hfold
      rcases ih b h hfold with ⟨rfl, hle⟩ | ⟨l₁, l₂, rfl, hbl, hl₁, hl₂⟩
      · refine Or.inl ⟨rfl, fun g' hg' => ?_⟩
        rcases List.mem_cons.mp hg' with rfl | hg''
        · exact le_of_not_lt h3
        · exact hle g' hg''
      · refine Or.inr ⟨g :: l₁, l₂, rfl, hbl, fun g' hg' => ?_, hl₂⟩
        rcases List.mem_cons.mp hg' with rfl | hg''
        · exact lt_of_le_of_lt (le_of_not_lt h3) hbl
        · exact hl₁ g' hg''

lemma foldl_sevStep_none_spec {l : List Highlight} {h : Highlight}
    (hfold : l.foldl sevStep none = some h) :
    ∃ l₁ l₂, l = l₁ ++ h :: l₂ ∧
      (∀ g ∈ l₁, severity_order g.severity < severity_order h.severity) ∧
      (∀ g ∈ l₂, severity_order g.severity ≤ severity_order h.severity) := by
  cases l with
  | nil => simp [List.foldl_nil] at hfold
  | cons g gs =>
    rw [List.foldl_cons, show sevStep none g = some g from rfl] at hfold
    rcases foldl_sevStep_spec gs g h hfold with ⟨rfl, hle⟩ | ⟨l₁, l₂, rfl, hbl, hl₁, hl₂⟩
    · exact ⟨[], gs, rfl, by simp, hle⟩
    · refine ⟨g :: l₁, l₂, rfl, fun g' hg' => ?_, hl₂⟩
      rcases List.mem_cons.mp hg' with rfl | hg''
      · exact hbl
      · exact hl₁ g' hg''

lemma pairwise_idx_lt_of_sorted_nodup :
    ∀ {l : List Highlight}, List.Pairwise idxLe l → (l.map Highlight.index).Nodup →
      List.Pairwise (fun a b => a.index < b.index) l := by
  intro l
  induction l with
  | nil => intro _ _; exact List.Pairwise.nil
  | cons a t ih =>
    intro hp hnd
    rw [List.pairwise_cons] at hp
    rw [List.map_cons, List.nodup_cons] at hnd
    refine List.pairwise_cons.mpr ⟨fun b hb => ?_, ih hp.2 hnd.2⟩
    refine lt_of_le_of_ne (hp.1 b hb) ?_
    intro heq
    exact hnd.1 (by rw [heq]; exact List.mem_map.mpr ⟨b, hb, rfl⟩)

lemma map_index_snd_eq_keys {seen : List (Nat × Highlight)} (hw : WellKeyed seen) :
    (seen.map Prod.snd).map Highlight.index = seen.map Prod.fst := by
  rw [List.map_map]
  exact List.map_congr_left fun p hp => hw p hp

/-- C1: `deduplicate` returns a list of records with strictly increasing
indices (hence at most one record per index); every kept record splits its
index group (in input order) into strictly-lower-severity predecessors and
no-higher-severity successors — i.e. it is the first-encountered candidate of
maximal severity at its index; and every index occurring among the
candidates is represented in the output. -/
theorem C1_deduplicate_correct (hls : List Highlight) :
    List.Pairwise (fun a b => a.index < b.index) (deduplicate hls) ∧
    (∀ hl ∈ deduplicate hls,
      ∃ l₁ l₂, hls.filter (fun g => g.index == hl.index) = l₁ ++ hl :: l₂ ∧
        (∀ g ∈ l₁, severity_order g.severity < severity_order hl.severity) ∧
        (∀ g ∈ l₂, severity_order g.severity ≤ severity_order hl.severity)) ∧
    (∀ g ∈ hls, ∃ hl ∈ deduplicate hls, hl.index = g.index) := by
  have hwk : WellKeyed (hls.foldl updateSeen []) :=
    wellKeyed_foldl hls [] (by intro p hp; simp at hp)
  have hnd : ((hls.foldl updateSeen []).map Prod.fst).Nodup :=
    nodup_keys_foldl hls [] (by simp)
  have hperm : (deduplicate hls).Perm ((hls.foldl updateSeen []).map Prod.snd) :=
    List.perm_insertionSort idxLe _
  have hsorted : List.Pairwise idxLe (deduplicate hls) :=
    List.sorted_insertionSort idxLe _
  have hidxnd : ((deduplicate hls).map Highlight.index).Nodup := by
    have h1 : ((hls.foldl updateSeen []).map Prod.snd).map Highlight.index
        = (hls.foldl updateSeen []).map Prod.fst := map_index_snd_eq_keys hwk
    have h2 := hperm.map Highlight.index
    rw [h1] at h2
    exact hnd.perm h2.symm
  refine ⟨pairwise_idx_lt_of_sorted_nodup hsorted hidxnd, ?_, ?_⟩
  · intro hl hmem
    have hmem' : hl ∈ (hls.foldl updateSeen []).map Prod.snd := hperm.mem_iff.mp hmem
    obtain ⟨p, hp, hsnd⟩ := List.mem_map.mp hmem'
    obtain ⟨k, h⟩ := p
    subst hsnd
    have hkey : Highlight.index h = k := hwk (k, h) hp
    have hfind : assocFind (Highlight.index h) (hls.foldl updateSeen []) = some h := by
      rw [hkey]
      exact assocFind_of_mem hnd hp
    rw [assocFind_foldl hls [] (Highlight.index h)] at hfind
    exact foldl_sevStep_none_spec hfind
  · intro g hg
    have hne : g ∈ hls.filter (fun g' => g'.index == g.index) :=
      List.mem_filter.mpr ⟨hg, by simp⟩
    obtain ⟨c, cs, hcons⟩ :
        ∃ c cs, hls.filter (fun g' => g'.index == g.index) = c :: cs := by
      cases hfl : hls.filter (fun g' => g'.index == g.index) with
      | nil => rw [hfl] at hne; simp at hne
      | cons c cs => exact ⟨c, cs, rfl⟩
    obtain ⟨h', hh'⟩ :
        ∃ h', (hls.filter (fun g' => g'.index == g.index)).foldl sevStep none = some h' := by
      rw [hcons, List.foldl_cons, show sevStep none c = some c from rfl]
      exact foldl_sevStep_some cs c
    have hfind : assocFind g.index (hls.foldl updateSeen []) = some h' := by
      rw [assocFind_foldl hls [] g.index]
      exact hh'
    have hpmem : (g.index, h') ∈ hls.foldl updateSeen [] := mem_of_assocFind hfind
    refine ⟨h', ?_, ?_⟩
    · exact hperm.mem_iff.mpr (List.mem_map.mpr ⟨(g.index, h'), hpmem, rfl⟩)
    · exact hwk (g.index, h') hpmem
